import Mathlib

/-!
Shallow embedding of the `pulse` reactive library core:
`DependencyTracker` (src/unnamed/part_002) and `Signal`
(src/src/core/signal.js).

JavaScript objects are modelled as immutable `Obj` records whose `id`
field stands for reference identity (distinct heap objects get distinct
ids).  JS `Map`s and `WeakMap`s are modelled as insertion-ordered
association lists, and JS `Set`s as insertion-ordered duplicate-free
lists, matching the iteration-order semantics of the originals.
Update closures created by `trigger` receive fresh numeric identities
(`cid`) from a counter in the state, modelling the fact that each
`() => subscriber.update()` arrow function is a brand-new heap object.
Subscriber callbacks and `update()` bodies are opaque: running one
emits an observable event (and a `caught` event when the body throws,
modelling the `try { ... } catch { console.error(...) }` blocks of the
source, which swallow subscriber failures).
-/

namespace Pulse

/-- JS primitive values held by a Signal (modelled as integers). -/
abbrev Val := Int

/-- A JavaScript object, as far as the tracker and Signal inspect it.
`id` models reference identity; `ctorName` is `constructor.name`;
`tgt`/`key` are the optional `target`/`key` fields read by the cycle
detector; `hasUpdate` models `typeof o.update === 'function'`;
`updThrows` says whether the object's `update()` body throws;
`isSignal` models `o instanceof Signal`. -/
structure Obj where
  id : Nat
  ctorName : String
  tgt : Option Nat := none
  key : Option String := none
  hasUpdate : Bool := false
  updThrows : Bool := false
  isSignal : Bool := false
deriving DecidableEq, Repr

/-- A direct-subscription callback passed to `Signal.subscribe`;
`throws` says whether invoking it raises. -/
structure Callback where
  id : Nat
  throws : Bool := false
deriving DecidableEq, Repr

/-- A thrown JS error value: its constructor's name and its message. -/
structure JsErr where
  className : String
  message : String
deriving DecidableEq, Repr

/-- An update closure (`() => subscriber.update()`): `cid` models the
closure's reference identity, `sub` the captured subscriber. -/
structure UpdateFn where
  cid : Nat
  sub : Obj
deriving DecidableEq, Repr

/-- Observable events of a run: an update closure executing its
subscriber's `update()`, a direct callback invoked with the signal's
current value (`none` models `undefined`), and a caught-and-logged
subscriber failure (`console.error`). -/
inductive Ev where
  | upd (cid : Nat) (subId : Nat)
  | cb (cbId : Nat) (v : Option Val)
  | caught (objId : Nat)
deriving DecidableEq, Repr

/-- Lookup in an association list (JS `Map.get` / `WeakMap.get`). -/
def alookup {α β : Type} [DecidableEq α] : List (α × β) → α → Option β
  | [], _ => none
  | (a, b) :: rest, x => if a = x then some b else alookup rest x

/-- Insert/replace in an association list (JS `Map.set`): replacement
keeps the key's position, a new key is appended. -/
def aset {α β : Type} [DecidableEq α] : List (α × β) → α → β → List (α × β)
  | [], x, y => [(x, y)]
  | (a, b) :: rest, x, y =>
    if a = x then (x, y) :: rest else (a, b) :: aset rest x y

/-- Delete a key from an association list (JS `Map.delete`). -/
def adel {α β : Type} [DecidableEq α] : List (α × β) → α → List (α × β)
  | [], _ => []
  | (a, b) :: rest, x =>
    if a = x then adel rest x else (a, b) :: adel rest x

/-- Add to a JS `Set` (no-op on a present member, else append). -/
def sadd {α : Type} [DecidableEq α] (l : List α) (x : α) : List α :=
  if x ∈ l then l else l ++ [x]

/-- Remove from a JS `Set`. -/
def sdel {α : Type} [DecidableEq α] : List α → α → List α
  | [], _ => []
  | a :: rest, x => if a = x then sdel rest x else a :: sdel rest x



/-- The combined mutable state of the global `DependencyTracker` and of
all `Signal` instances.  `executionStack` has its top at the head
(JS `push`/`pop` act on the array's end).  `deps` is the tracker's
`#dependencies` WeakMap (target the subscriber sets),
`subs` its `#subscribers` WeakMap (context the targets/keys it
depends on).  `pending` is the `#pendingUpdates` Set (insertion order,
duplicate-free).  `nextCid` is the supply of fresh closure identities.
`sigVal`/`sigSubs` hold every Signal's private `#value` and
`#subscribers` fields, keyed by the Signal object. -/
structure World where
  executionStack : List Obj := []
  deps : List (Obj × List (String × List Obj)) := []
  subs : List (Obj × List (Obj × List String)) := []
  batchDepth : Nat := 0
  pending : List UpdateFn := []
  nextCid : Nat := 0
  sigVal : List (Obj × Val) := []
  sigSubs : List (Obj × List Callback) := []
deriving DecidableEq, Repr

/-- `DependencyTracker.getCurrentContext`: top of the execution stack. -/
def getCurrentContext (st : World) : Option Obj :=
  st.executionStack.head?

/-- `DependencyTracker.track(target, key)`: no-op without a current
context; otherwise records the edge in the forward index
(`deps`: target → key → subscriber set) and in the reverse index
(`subs`: context → target → key set), creating missing entries. -/
def track (st : World) (t : Obj) (k : String) : World :=
  match getCurrentContext st with
  | none => st
  | some c =>
    let dm0 := (alookup st.deps t).getD []
    let ss0 := (alookup dm0 k).getD []
    let dm1 := aset dm0 k (sadd ss0 c)
    let cm0 := (alookup st.subs c).getD []
    let ks0 := (alookup cm0 t).getD []
    let cm1 := aset cm0 t (sadd ks0 k)
    { st with deps := aset st.deps t dm1, subs := aset st.subs c cm1 }

/-- `DependencyTracker.#detectCircularDependency(target, key)`: true
when some context on the live execution stack has `target`/`key`
fields equal (by reference resp. string identity) to the pair being
triggered. -/
def detectCircular (st : World) (t : Obj) (k : String) : Bool :=
  st.executionStack.any (fun c => c.tgt == some t.id && c.key == some k)

/-- The error thrown by `trigger` on a detected cycle:
`new Error` with the message built from `target.constructor.name`
and `String(key)`. -/
def circErr (t : Obj) (k : String) : JsErr :=
  ⟨"Error", "Circular dependency detected for " ++ t.ctorName ++ "." ++ k⟩

/-- Running one queued update closure `() => subscriber.update()`:
the `update()` call is observable as an event; if the body throws, the
surrounding `try`/`catch` logs it (a `caught` event) and continues. -/
def runUpd (f : UpdateFn) : List Ev :=
  Ev.upd f.cid f.sub.id :: (if f.sub.updThrows then [Ev.caught f.sub.id] else [])

/-- `DependencyTracker.queueUpdate(updateFn)`: during a batch, add to
the pending Set (deduplicated by closure identity); otherwise run the
closure immediately, catching any failure. -/
def queueUpdate (st : World) (f : UpdateFn) : World × List Ev :=
  if st.batchDepth > 0 then
    ({ st with pending := sadd st.pending f }, [])
  else
    (st, runUpd f)

/-- Queue the collected update closures of one `trigger` call, in
subscriber order. -/
def queueAll (st : World) : List UpdateFn → World × List Ev
  | [] => (st, [])
  | f :: fs =>
    let r1 := queueUpdate st f
    let r2 := queueAll r1.1 fs
    (r2.1, r1.2 ++ r2.2)

/-- Wrap each subscriber that has an `update` capability in a fresh
closure, assigning consecutive closure identities from `base`. -/
def mkClosures (base : Nat) : List Obj → List UpdateFn
  | [] => []
  | s :: rest => ⟨base, s⟩ :: mkClosures (base + 1) rest

/-- `DependencyTracker.trigger(target, key)`: no-op when no
dependencies or no subscribers are recorded; else checks the cycle
guard (throwing `new Error(...)`), then builds one fresh
`() => subscriber.update()` closure per subscriber with an `update`
function and hands each to `queueUpdate`. -/
def trigger (st : World) (t : Obj) (k : String) : World × List Ev × Option JsErr :=
  match alookup st.deps t with
  | none => (st, [], none)
  | some dm =>
    match alookup dm k with
    | none => (st, [], none)
    | some ss =>
      if ss.isEmpty then (st, [], none)
      else if detectCircular st t k then
        (st, [], some (circErr t k))
      else
        let subsU := ss.filter (fun s => s.hasUpdate)
        let fns := mkClosures st.nextCid subsU
        let r := queueAll { st with nextCid := st.nextCid + subsU.length } fns
        (r.1, r.2, none)

/-- `DependencyTracker.#flushUpdates()`: snapshot the pending Set,
clear it, run every update in insertion order, isolating failures. -/
def flushUpdates (st : World) : World × List Ev :=
  if st.pending = [] then (st, [])
  else ({ st with pending := [] }, st.pending.flatMap runUpd)

/-- `DependencyTracker.clearDependencies(target)`: deletes the
target's entry in the forward index and the target's entry (as a
context) in the reverse index. -/
def clearDependencies (st : World) (t : Obj) : World :=
  { st with deps := adel st.deps t, subs := adel st.subs t }

/-- Inner loop of `cleanupContext`: for each key the context depended
on, remove the context from that key's subscriber set, deleting the
set when it becomes empty. -/
def cleanKeys (c : Obj) : List String → List (String × List Obj) → List (String × List Obj)
  | [], dm => dm
  | k :: ks, dm =>
    let dm1 :=
      match alookup dm k with
      | none => dm
      | some ss =>
        let ss' := sdel ss c
        if ss' = [] then adel dm k else aset dm k ss'
    cleanKeys c ks dm1

/-- Outer loop of `cleanupContext`: for each target the context
depended on, clean that target's key map, deleting the map when it
becomes empty. -/
def cleanTargets (c : Obj) : List (Obj × List String) → List (Obj × List (String × List Obj)) → List (Obj × List (String × List Obj))
  | [], d => d
  | (t, ks) :: rest, d =>
    let d1 :=
      match alookup d t with
      | none => d
      | some dm =>
        let dm' := cleanKeys c ks dm
        if dm' = [] then adel d t else aset d t dm'
    cleanTargets c rest d1

/-- `DependencyTracker.cleanupContext(context)`: walks the context's
reverse-index entry, removes the context from every forward-index
subscriber set it lists (pruning empty sets and maps), then deletes
the context's reverse-index entry. -/
def cleanupContext (st : World) (c : Obj) : World :=
  match alookup st.subs c with
  | none => st
  | some cm =>
    { st with deps := cleanTargets c cm st.deps, subs := adel st.subs c }

/-- `Signal.prototype.update()`: invoke every direct subscriber with
the current `#value`, each in a `try`/`catch` so a throwing callback
is logged and the remaining callbacks still run.  State is unchanged;
the result is the emitted event list. -/
def signalUpdate (st : World) (s : Obj) : List Ev :=
  ((alookup st.sigSubs s).getD []).flatMap
    (fun cb => Ev.cb cb.id (alookup st.sigVal s) ::
      (if cb.throws then [Ev.caught cb.id] else []))

/-- `Signal.set value(newValue)`: no-op when the new value is
identical to `#value`; else store it, notify direct subscribers
(`this.update()`), then `globalTracker.trigger(this, 'value')`. -/
def setValue (st : World) (s : Obj) (v : Val) : World × List Ev × Option JsErr :=
  if alookup st.sigVal s = some v then (st, [], none)
  else
    let st1 := { st with sigVal := aset st.sigVal s v }
    let evs := signalUpdate st1 s
    let r := trigger st1 s "value"
    (r.1, evs ++ r.2.1, r.2.2)

/-- `Signal.prototype.subscribe(callback)`: add the callback to the
Signal's direct-subscriber Set. -/
def subscribeSig (st : World) (s : Obj) (cb : Callback) : World :=
  { st with sigSubs := aset st.sigSubs s (sadd ((alookup st.sigSubs s).getD []) cb) }

/-- `Signal.prototype.dispose()`: clear the direct-subscriber Set,
then `globalTracker.clearDependencies(this)`. -/
def dispose (st : World) (s : Obj) : World :=
  clearDependencies { st with sigSubs := aset st.sigSubs s [] } s

/-- `Signal.subscribeToMultiple(signals, callback)`: walk the array
with `map`, throwing on the first non-Signal element (subscriptions
already made are kept); `none` in the result means the combined
unsubscribe closure was returned, `some e` that `e` was thrown and no
closure was produced. -/
def subscribeToMultiple : World → List Obj → Callback → World × Option JsErr
  | st, [], _ => (st, none)
  | st, s :: rest, cb =>
    if s.isSignal then subscribeToMultiple (subscribeSig st s cb) rest cb
    else (st, some ⟨"Error", "All items must be Signal instances"⟩)

/-- Forward-index subscriber set for `(target, key)` (empty when the
entry is missing). -/
def fwdSet (st : World) (t : Obj) (k : String) : List Obj :=
  (alookup ((alookup st.deps t).getD []) k).getD []

/-- An edge exists in the forward index: `c` is in the subscriber set
of `(t, k)`. -/
def FwdMem (st : World) (t : Obj) (k : String) (c : Obj) : Prop :=
  c ∈ fwdSet st t k

/-- Reverse-index key set for context `c` and target `t`. -/
def revSet (st : World) (c : Obj) (t : Obj) : List String :=
  (alookup ((alookup st.subs c).getD []) t).getD []

/-- The matching entry exists in the reverse index: `k` is in the key
set recorded for context `c` under target `t`. -/
def RevMem (st : World) (c : Obj) (t : Obj) (k : String) : Prop :=
  k ∈ revSet st c t

instance (st : World) (t : Obj) (k : String) (c : Obj) : Decidable (FwdMem st t k c) := by
  unfold FwdMem; infer_instance

instance (st : World) (c : Obj) (t : Obj) (k : String) : Decidable (RevMem st c t k) := by
  unfold RevMem; infer_instance

/-- The §3 data-model invariant: a dependency edge is in the forward
index iff the matching entry is in the reverse index. -/
def Inv (st : World) : Prop :=
  ∀ t k c, FwdMem st t k c ↔ RevMem st c t k

/-- Hygiene of the forward index: no stored subscriber set and no
stored per-target key map is empty. -/
def NoEmpties (st : World) : Prop :=
  ∀ t dm, alookup st.deps t = some dm →
    dm ≠ [] ∧ ∀ k ss, alookup dm k = some ss → ss ≠ []

/-- Membership of a context in one forward-index key map (helper for
reasoning about `cleanKeys`). -/
def dmMem (dm : List (String × List Obj)) (k : String) (c : Obj) : Prop :=
  c ∈ (alookup dm k).getD []

/-- Membership of an edge in a raw forward index (helper for reasoning
about `cleanTargets`); `FwdMem st` is `depsMem st.deps`. -/
def depsMem (d : List (Obj × List (String × List Obj))) (t : Obj) (k : String) (c : Obj) : Prop :=
  c ∈ (alookup ((alookup d t).getD []) k).getD []

/-- Subscribe `cb` to each listed signal in order (names the state
reached by `subscribeToMultiple` over a prefix of valid Signals). -/
def subscribeAll (st : World) : List Obj → Callback → World
  | [], _ => st
  | s :: rest, cb => subscribeAll (subscribeSig st s cb) rest cb

mutual
/-- One client call into the library's public API, used to quantify
over the behaviours a JS callback passed to `batchUpdates` or
`withTracking` can perform through that API. -/
inductive Cmd where
  | read (s : Obj)
  | write (s : Obj) (v : Val)
  | track (t : Obj) (k : String)
  | trig (t : Obj) (k : String)
  | queue (f : UpdateFn)
  | batch (body : Cmds)
  | withT (c : Obj) (body : Cmds)
  | cleanup (c : Obj)
  | clearDeps (t : Obj)
  | disposeSig (s : Obj)
  | subscribe (s : Obj) (cb : Callback)
  | throwErr (e : JsErr)

/-- A sequence of API calls (the body of a JS function). -/
inductive Cmds where
  | nil
  | cons (c : Cmd) (rest : Cmds)
end

mutual
/-- Interpret one API call.  `batch` is
`DependencyTracker.batchUpdates(fn)`: increment `#batchDepth`, run the
body, and in the `finally` block decrement and flush when the depth
returned to zero (so the flush happens even when the body throws, and
the body's exception still propagates).  `withT` is
`DependencyTracker.withTracking(fn, context)`: push the context, run
the body, pop in the `finally` block.  `read`/`write` are the Signal
`value` accessors, `throwErr` a body statement that throws. -/
def runCmd : World → Cmd → World × List Ev × Option JsErr
  | st, .read s => (track st s "value", [], none)
  | st, .write s v => setValue st s v
  | st, .track t k => (track st t k, [], none)
  | st, .trig t k => trigger st t k
  | st, .queue f =>
    let r := queueUpdate st f
    (r.1, r.2, none)
  | st, .batch body =>
    let r := runCmds { st with batchDepth := st.batchDepth + 1 } body
    let st2 := { r.1 with batchDepth := r.1.batchDepth - 1 }
    if st2.batchDepth = 0 then
      let fl := flushUpdates st2
      (fl.1, r.2.1 ++ fl.2, r.2.2)
    else (st2, r.2.1, r.2.2)
  | st, .withT c body =>
    let r := runCmds { st with executionStack := c :: st.executionStack } body
    ({ r.1 with executionStack := r.1.executionStack.tail }, r.2.1, r.2.2)
  | st, .cleanup c => (cleanupContext st c, [], none)
  | st, .clearDeps t => (clearDependencies st t, [], none)
  | st, .disposeSig s => (dispose st s, [], none)
  | st, .subscribe s cb => (subscribeSig st s cb, [], none)
  | st, .throwErr e => (st, [], some e)

/-- Interpret a sequence of API calls, stopping at the first uncaught
exception (which propagates). -/
def runCmds : World → Cmds → World × List Ev × Option JsErr
  | st, .nil => (st, [], none)
  | st, .cons c rest =>
    let r := runCmd st c
    match r.2.2 with
    | some e => (r.1, r.2.1, some e)
    | none =>
      let r2 := runCmds r.1 rest
      (r2.1, r.2.1 ++ r2.2.1, r2.2.2)
end

/-- `DependencyTracker.withTracking(fn, context)` with an explicit
result value: push `context`, run `fn`, pop in the `finally` block;
return `fn`'s value (`fnRet`) on normal completion, re-raise `fn`'s
exception otherwise. -/
def withTracking (st : World) (fn : Cmds) (fnRet : Val) (c : Obj) : World × List Ev × Except JsErr Val :=
  let r := runCmds { st with executionStack := c :: st.executionStack } fn
  ({ r.1 with executionStack := r.1.executionStack.tail }, r.2.1,
    match r.2.2 with
    | some e => Except.error e
    | none => Except.ok fnRet)

/-- `DependencyTracker.batchUpdates(fn)` as an operation on the world:
run `fn`'s API calls inside one batch window. -/
def batchUpdates (st : World) (fn : Cmds) : World × List Ev × Option JsErr :=
  runCmd st (.batch fn)

/-- Number of times the subscriber with id `subId` had its `update()`
executed in an event trace. -/
def countUpd (evs : List Ev) (subId : Nat) : Nat :=
  (evs.filter (fun e =>
    match e with
    | .upd _ i => i == subId
    | _ => false)).length

/-- A Signal object (concrete instance for counterexamples). -/
def xSig : Obj := { id := 1, ctorName := "Signal", isSignal := true }

/-- An Effect-like subscriber context with an `update` method. -/
def xEff : Obj := { id := 2, ctorName := "Effect", hasUpdate := true }

/-- A context that is mid-update for `(xSig, 'value')`: its `target`
and `key` fields name that pair. -/
def xCtx : Obj :=
  { id := 3, ctorName := "Object", tgt := some 1, key := some "value", hasUpdate := true }

/-- A plain context with no `target`/`key` fields. -/
def xCtx2 : Obj := { id := 4, ctorName := "Object" }

/-- World for the C1 failing input: one Effect subscribed (through the
tracker) to `(xSig, 'value')`, consistent indices, stored value 0. -/
def bW : World :=
  { deps := [(xSig, [("value", [xEff])])],
    subs := [(xEff, [(xSig, ["value"])])],
    sigVal := [(xSig, 0)] }

/-- World for the C3 counterexample: `xCtx` is live on the execution
stack and subscribed to `(xSig, 'value')`. -/
def cW : World :=
  { executionStack := [xCtx],
    deps := [(xSig, [("value", [xCtx])])],
    subs := [(xCtx, [(xSig, ["value"])])],
    sigVal := [(xSig, 0)] }

/-- World for the C2 counterexample: empty indices, `xCtx2` live on
the stack so that a `track` call records an edge for it. -/
def tW : World := { executionStack := [xCtx2] }

/-- A signal with one direct subscriber (witness input). -/
def sW : World :=
  { sigVal := [(xSig, 0)], sigSubs := [(xSig, [{ id := 7 }])] }

/-- The empty world (witness input). -/
def emptyW : World := {}

section AssocLemmas

variable {α β : Type} [DecidableEq α]

theorem alookup_aset_self (l : List (α × β)) (x : α) (y : β) :
    alookup (aset l x y) x = some y := by
  induction l with
  | nil => simp [aset, alookup]
  | cons p rest ih =>
    by_cases h : p.1 = x <;> simp [aset, alookup, h, ih]

theorem alookup_aset_ne (l : List (α × β)) {x x' : α} (y : β) (h : x' ≠ x) :
    alookup (aset l x y) x' = alookup l x' := by
  induction l with
  | nil => simp [aset, alookup, Ne.symm h]
  | cons p rest ih =>
    by_cases hp : p.1 = x
    · simp [aset, alookup, hp, Ne.symm h]
    · by_cases hx : p.1 = x' <;> simp [aset, alookup, hp, hx, h, ih]

theorem alookup_adel_self (l : List (α × β)) (x : α) :
    alookup (adel l x) x = none := by
  induction l with
  | nil => simp [adel, alookup]
  | cons p rest ih =>
    by_cases h : p.1 = x <;> simp [adel, alookup, h, ih]

theorem alookup_adel_ne (l : List (α × β)) {x x' : α} (h : x' ≠ x) :
    alookup (adel l x) x' = alookup l x' := by
  induction l with
  | nil => simp [adel, alookup]
  | cons p rest ih =>
    by_cases hp : p.1 = x
    · simp [adel, alookup, hp, ih, Ne.symm h]
    · by_cases hx : p.1 = x' <;> simp [adel, alookup, hp, hx, h, ih]

theorem mem_sadd {l : List α} {x a : α} :
    a ∈ sadd l x ↔ a ∈ l ∨ a = x := by
  by_cases h : x ∈ l
  · simp only [sadd, if_pos h]
    constructor
    · exact Or.inl
    · rintro (ha | rfl)
      · exact ha
      · exact h
  · simp [sadd, if_neg h]

theorem mem_sdel {l : List α} {x a : α} :
    a ∈ sdel l x ↔ a ∈ l ∧ a ≠ x := by
  induction l with
  | nil => simp [sdel]
  | cons b rest ih =>
    by_cases h : b = x
    · subst h
      rw [sdel, if_pos rfl, ih, List.mem_cons]
      constructor
      · rintro ⟨ha, hne⟩
        exact ⟨Or.inr ha, hne⟩
      · rintro ⟨hb | ha, hne⟩
        · exact absurd hb hne
        · exact ⟨ha, hne⟩
    · rw [sdel, if_neg h, List.mem_cons, List.mem_cons, ih]
      constructor
      · rintro (rfl | ⟨ha, hne⟩)
        · exact ⟨Or.inl rfl, h⟩
        · exact ⟨Or.inr ha, hne⟩
      · rintro ⟨rfl | ha, hne⟩
        · exact Or.inl rfl
        · exact Or.inr ⟨ha, hne⟩

theorem sdel_eq_nil_iff {l : List α} {x : α} :
    sdel l x = [] ↔ ∀ a ∈ l, a = x := by
  induction l with
  | nil => simp [sdel]
  | cons b rest ih =>
    by_cases h : b = x <;> simp [sdel, h, ih]

end AssocLemmas


theorem queueUpdate_fields (st : World) (f : UpdateFn) :
    (queueUpdate st f).1.deps = st.deps ∧ (queueUpdate st f).1.subs = st.subs ∧
    (queueUpdate st f).1.executionStack = st.executionStack ∧
    (queueUpdate st f).1.batchDepth = st.batchDepth ∧
    (queueUpdate st f).1.sigVal = st.sigVal ∧ (queueUpdate st f).1.sigSubs = st.sigSubs := by
  unfold queueUpdate
  split <;> exact ⟨rfl, rfl, rfl, rfl, rfl, rfl⟩

theorem queueAll_fields (fs : List UpdateFn) (st : World) :
    (queueAll st fs).1.deps = st.deps ∧ (queueAll st fs).1.subs = st.subs ∧
    (queueAll st fs).1.executionStack = st.executionStack ∧
    (queueAll st fs).1.batchDepth = st.batchDepth ∧
    (queueAll st fs).1.sigVal = st.sigVal ∧ (queueAll st fs).1.sigSubs = st.sigSubs := by
  induction fs generalizing st with
  | nil => exact ⟨rfl, rfl, rfl, rfl, rfl, rfl⟩
  | cons f fs ih =>
    have hq := queueUpdate_fields st f
    have hrest := ih (queueUpdate st f).1
    simp only [queueAll]
    exact ⟨hrest.1.trans hq.1, hrest.2.1.trans hq.2.1,
      hrest.2.2.1.trans hq.2.2.1, hrest.2.2.2.1.trans hq.2.2.2.1,
      hrest.2.2.2.2.1.trans hq.2.2.2.2.1, hrest.2.2.2.2.2.trans hq.2.2.2.2.2⟩

theorem trigger_fields (st : World) (t : Obj) (k : String) :
    (trigger st t k).1.deps = st.deps ∧ (trigger st t k).1.subs = st.subs ∧
    (trigger st t k).1.executionStack = st.executionStack ∧
    (trigger st t k).1.batchDepth = st.batchDepth ∧
    (trigger st t k).1.sigVal = st.sigVal ∧ (trigger st t k).1.sigSubs = st.sigSubs := by
  unfold trigger
  split
  · exact ⟨rfl, rfl, rfl, rfl, rfl, rfl⟩
  split
  · exact ⟨rfl, rfl, rfl, rfl, rfl, rfl⟩
  split
  · exact ⟨rfl, rfl, rfl, rfl, rfl, rfl⟩
  split
  · exact ⟨rfl, rfl, rfl, rfl, rfl, rfl⟩
  exact queueAll_fields _ _

/-- C5: writing a value identical (by JS identity) to the stored one
is a complete no-op: the state (stored value included) is unchanged,
no direct subscriber is invoked and no trigger propagates; writing the
same value twice therefore makes the second write a no-op. -/
theorem signal_identical_write_noop (st : World) (s : Obj) (v : Val) :
    (alookup st.sigVal s = some v → setValue st s v = (st, [], none)) ∧
    setValue (setValue st s v).1 s v = ((setValue st s v).1, [], none) := by
  constructor
  · intro h
    simp [setValue, h]
  · have hv : alookup (setValue st s v).1.sigVal s = some v := by
      by_cases h : alookup st.sigVal s = some v
      · simp [setValue, h]
      · simp only [setValue, if_neg h]
        have := (trigger_fields { st with sigVal := aset st.sigVal s v } s "value").2.2.2.2.1
        simp only [this]
        exact alookup_aset_self st.sigVal s v
    generalize (setValue st s v).1 = st1 at hv ⊢
    simp [setValue, hv]

/-- C6: writing a genuinely new value stores it, then synchronously
invokes every direct subscriber with the new value (in insertion
order, a throwing callback being caught and the remaining ones still
running), and only then calls `trigger(this, 'value')`; any error of
the write comes from `trigger`, never from a subscriber. -/
theorem signal_changed_write_sequence (st : World) (s : Obj) (v : Val)
    (h : alookup st.sigVal s ≠ some v) :
    setValue st s v =
      (let st1 : World := { st with sigVal := aset st.sigVal s v }
       let r := trigger st1 s "value"
       (r.1, signalUpdate st1 s ++ r.2.1, r.2.2)) ∧
    alookup (setValue st s v).1.sigVal s = some v ∧
    signalUpdate { st with sigVal := aset st.sigVal s v } s =
      ((alookup st.sigSubs s).getD []).flatMap
        (fun cb => Ev.cb cb.id (some v) :: (if cb.throws then [Ev.caught cb.id] else [])) := by
  refine ⟨by simp [setValue, h], ?_, ?_⟩
  · simp only [setValue, if_neg h]
    have := (trigger_fields { st with sigVal := aset st.sigVal s v } s "value").2.2.2.2.1
    simp only [this]
    exact alookup_aset_self st.sigVal s v
  · simp [signalUpdate, alookup_aset_self]

/-- C9: after `dispose()` on a Signal with at least one direct
subscriber, a write through the `value` setter emits no subscriber
invocation at all and raises no error: the direct-subscriber set was
cleared and the tracker's forward entry for the signal was dropped. -/
theorem disposed_signal_write_silent (st : World) (s : Obj)
    (h : (alookup st.sigSubs s).getD [] ≠ []) (v : Val) :
    (setValue (dispose st s) s v).2.1 = [] ∧
    (setValue (dispose st s) s v).2.2 = none := by
  have hsubs : alookup (dispose st s).sigSubs s = some [] := by
    simp only [dispose, clearDependencies]
    exact alookup_aset_self st.sigSubs s []
  have hdeps : alookup (dispose st s).deps s = none := by
    simp only [dispose, clearDependencies]
    exact alookup_adel_self st.deps s
  by_cases hv : alookup (dispose st s).sigVal s = some v
  · simp [setValue, hv]
  · simp only [setValue, if_neg hv]
    have h1 : signalUpdate { dispose st s with sigVal := aset (dispose st s).sigVal s v } s = [] := by
      simp [signalUpdate, hsubs]
    have h2 : trigger { dispose st s with sigVal := aset (dispose st s).sigVal s v } s "value" =
        ({ dispose st s with sigVal := aset (dispose st s).sigVal s v }, [], none) := by
      simp only [trigger]
      simp [hdeps]
    simp [h1, h2]


/-- C3 (amended): with at least one subscriber recorded for the pair
and a context on the live execution stack whose `target`/`key` fields
name that exact pair, `trigger` raises a plain `Error` whose message
identifies the target's constructor name and the key, and the error
propagates out of `trigger` and out of a Signal `value` write. -/
theorem trigger_cycle_raises_plain_error (st : World) (t : Obj) (k : String)
    (h1 : fwdSet st t k ≠ [])
    (h2 : ∃ c ∈ st.executionStack, c.tgt = some t.id ∧ c.key = some k) :
    trigger st t k = (st, [], some (circErr t k)) ∧
    (circErr t k).message = "Circular dependency detected for " ++ t.ctorName ++ "." ++ k ∧
    (k = "value" → ∀ v, alookup st.sigVal t ≠ some v →
      (setValue st t v).2.2 = some (circErr t k)) := by
  obtain ⟨dm, hdm⟩ : ∃ dm, alookup st.deps t = some dm := by
    cases h : alookup st.deps t with
    | none => exact absurd (by simp [fwdSet, h, alookup]) h1
    | some dm => exact ⟨dm, rfl⟩
  obtain ⟨ss, hss⟩ : ∃ ss, alookup dm k = some ss := by
    cases h : alookup dm k with
    | none => exact absurd (by simp [fwdSet, hdm, h]) h1
    | some ss => exact ⟨ss, rfl⟩
  have hssne : ss ≠ [] := fun hnil => h1 (by simp [fwdSet, hdm, hss, hnil])
  have hempty : ss.isEmpty = false := by
    cases ss with
    | nil => exact absurd rfl hssne
    | cons a l => rfl
  have hdet : detectCircular st t k = true := by
    obtain ⟨c, hc, hct, hck⟩ := h2
    simp only [detectCircular, List.any_eq_true]
    exact ⟨c, hc, by simp [hct, hck]⟩
  have htr : trigger st t k = (st, [], some (circErr t k)) := by
    simp [trigger, hdm, hss, hempty, hdet]
  refine ⟨htr, rfl, ?_⟩
  rintro rfl v hv
  simp only [setValue, if_neg hv]
  have hdm1 : alookup ({ st with sigVal := aset st.sigVal t v } : World).deps t = some dm := hdm
  have hdet1 : detectCircular { st with sigVal := aset st.sigVal t v } t "value" = true := hdet
  simp [trigger, hdm1, hss, hempty, hdet1]

/-- C3 counterexample: on a concrete cycle the raised error is a plain
`Error`; it is not an instance of a distinguished
`CircularDependencyError` class (the implementation never defines
one). -/
theorem trigger_cycle_error_not_distinguished :
    (trigger cW xSig "value").2.2 =
      some { className := "Error", message := "Circular dependency detected for Signal.value" } ∧
    "Error" ≠ "CircularDependencyError" :=
  ⟨rfl, by decide⟩

theorem subscribeSig_mem (st : World) (s : Obj) (cb : Callback) :
    cb ∈ (alookup (subscribeSig st s cb).sigSubs s).getD [] := by
  simp only [subscribeSig, alookup_aset_self, Option.getD_some]
  exact mem_sadd.mpr (Or.inr rfl)

theorem subscribeSig_mono (st : World) (s s' : Obj) (cb cb' : Callback)
    (h : cb ∈ (alookup st.sigSubs s).getD []) :
    cb ∈ (alookup (subscribeSig st s' cb').sigSubs s).getD [] := by
  by_cases hs : s = s'
  · subst hs
    simp only [subscribeSig, alookup_aset_self, Option.getD_some]
    exact mem_sadd.mpr (Or.inl (by
      cases hh : alookup st.sigSubs s with
      | none => simp [hh] at h
      | some l => simpa [hh] using h))
  · simpa [subscribeSig, alookup_aset_ne _ _ hs] using h

theorem subscribeAll_mono (pre : List Obj) (st : World) (cb cb' : Callback) (s : Obj)
    (h : cb ∈ (alookup st.sigSubs s).getD []) :
    cb ∈ (alookup (subscribeAll st pre cb').sigSubs s).getD [] := by
  induction pre generalizing st with
  | nil => exact h
  | cons a l ih => exact ih _ (subscribeSig_mono _ _ _ _ _ h)

theorem subscribeAll_mem (pre : List Obj) (st : World) (cb : Callback) :
    ∀ s ∈ pre, cb ∈ (alookup (subscribeAll st pre cb).sigSubs s).getD [] := by
  induction pre generalizing st with
  | nil => intro s hs; cases hs
  | cons a l ih =>
    intro s hs
    rcases List.mem_cons.mp hs with rfl | hs'
    · exact subscribeAll_mono l _ cb cb s (subscribeSig_mem st s cb)
    · exact ih (subscribeSig st a cb) s hs'

/-- C10: `subscribeToMultiple` validates elements one at a time while
subscribing: at the first non-Signal element it throws, the elements
before it remain subscribed (no rollback) and the combined
unsubscribe closure is never returned. -/
theorem subscribeToMultiple_partial_on_invalid (st : World) (pre : List Obj) (bad : Obj)
    (rest : List Obj) (cb : Callback)
    (hpre : ∀ s ∈ pre, s.isSignal = true) (hbad : bad.isSignal = false) :
    subscribeToMultiple st (pre ++ bad :: rest) cb =
      (subscribeAll st pre cb, some ⟨"Error", "All items must be Signal instances"⟩) ∧
    ∀ s ∈ pre, cb ∈ (alookup (subscribeAll st pre cb).sigSubs s).getD [] := by
  refine ⟨?_, subscribeAll_mem pre st cb⟩
  induction pre generalizing st with
  | nil => simp [subscribeToMultiple, subscribeAll, hbad]
  | cons a l ih =>
    have ha : a.isSignal = true := hpre a (List.mem_cons_self a l)
    simp only [List.cons_append, subscribeToMultiple, ha, if_true, subscribeAll]
    exact ih (subscribeSig st a cb) (fun s hs => hpre s (List.mem_cons_of_mem a hs))


theorem alookup_mem {α β : Type} [DecidableEq α] {l : List (α × β)} {x : α} {y : β}
    (h : alookup l x = some y) : (x, y) ∈ l := by
  induction l with
  | nil => simp [alookup] at h
  | cons p rest ih =>
    obtain ⟨a, b⟩ := p
    by_cases hp : a = x
    · subst hp
      rw [alookup, if_pos rfl] at h
      injection h with h
      subst h
      exact List.mem_cons_self _ _
    · rw [alookup, if_neg hp] at h
      exact List.mem_cons_of_mem _ (ih h)

theorem cleanKeys_nil (c : Obj) (dm : List (String × List Obj)) :
    cleanKeys c [] dm = dm := rfl

theorem cleanKeys_cons_none {c : Obj} {k0 : String} {dm : List (String × List Obj)}
    (ks : List String) (h : alookup dm k0 = none) :
    cleanKeys c (k0 :: ks) dm = cleanKeys c ks dm := by
  rw [cleanKeys, h]

theorem cleanKeys_cons_some {c : Obj} {k0 : String} {dm : List (String × List Obj)}
    {ss : List Obj} (ks : List String) (h : alookup dm k0 = some ss) :
    cleanKeys c (k0 :: ks) dm =
      cleanKeys c ks (if sdel ss c = [] then adel dm k0 else aset dm k0 (sdel ss c)) := by
  rw [cleanKeys, h]

theorem cleanKeys_other {c c' : Obj} (hne : c' ≠ c) (ks : List String)
    (dm : List (String × List Obj)) (k : String) :
    dmMem (cleanKeys c ks dm) k c' ↔ dmMem dm k c' := by
  induction ks generalizing dm with
  | nil => exact Iff.rfl
  | cons k0 ks ih =>
    cases h0 : alookup dm k0 with
    | none => rw [cleanKeys_cons_none ks h0, ih]
    | some ss =>
      rw [cleanKeys_cons_some ks h0]
      by_cases hnil : sdel ss c = []
      · rw [if_pos hnil, ih]
        by_cases hk : k = k0
        · subst hk
          simp only [dmMem, alookup_adel_self, Option.getD_none, List.not_mem_nil, false_iff,
            h0, Option.getD_some]
          intro hmem
          exact hne (sdel_eq_nil_iff.mp hnil c' hmem)
        · simp only [dmMem, alookup_adel_ne _ hk]
      · rw [if_neg hnil, ih]
        by_cases hk : k = k0
        · subst hk
          simp only [dmMem, alookup_aset_self, Option.getD_some, h0, mem_sdel]
          exact ⟨fun h => h.1, fun h => ⟨h, hne⟩⟩
        · simp only [dmMem, alookup_aset_ne _ _ hk]

theorem cleanKeys_mono {c : Obj} (ks : List String) (dm : List (String × List Obj))
    (k : String) (h : dmMem (cleanKeys c ks dm) k c) : dmMem dm k c := by
  induction ks generalizing dm with
  | nil => exact h
  | cons k0 ks ih =>
    cases h0 : alookup dm k0 with
    | none =>
      rw [cleanKeys_cons_none ks h0] at h
      exact ih _ h
    | some ss =>
      rw [cleanKeys_cons_some ks h0] at h
      by_cases hnil : sdel ss c = []
      · rw [if_pos hnil] at h
        have h1 := ih _ h
        by_cases hk : k = k0
        · subst hk
          simp [dmMem, alookup_adel_self] at h1
        · simpa [dmMem, alookup_adel_ne _ hk] using h1
      · rw [if_neg hnil] at h
        have h1 := ih _ h
        by_cases hk : k = k0
        · subst hk
          simp only [dmMem, alookup_aset_self, Option.getD_some, mem_sdel] at h1
          exact absurd rfl h1.2
        · simpa [dmMem, alookup_aset_ne _ _ hk] using h1

theorem cleanKeys_removes {c : Obj} {ks : List String} {k : String} (hk : k ∈ ks)
    (dm : List (String × List Obj)) : ¬ dmMem (cleanKeys c ks dm) k c := by
  induction ks generalizing dm with
  | nil => cases hk
  | cons k0 ks ih =>
    rcases List.mem_cons.mp hk with rfl | hk'
    · by_cases hks : k ∈ ks
      · cases h0 : alookup dm k with
        | none => rw [cleanKeys_cons_none ks h0]; exact ih hks _
        | some ss => rw [cleanKeys_cons_some ks h0]; exact ih hks _
      · intro hmem
        cases h0 : alookup dm k with
        | none =>
          rw [cleanKeys_cons_none ks h0] at hmem
          have h1 := cleanKeys_mono ks _ k hmem
          simp [dmMem, h0] at h1
        | some ss =>
          rw [cleanKeys_cons_some ks h0] at hmem
          have h1 := cleanKeys_mono ks _ k hmem
          by_cases hnil : sdel ss c = []
          · rw [if_pos hnil] at h1
            simp [dmMem, alookup_adel_self] at h1
          · rw [if_neg hnil] at h1
            simp only [dmMem, alookup_aset_self, Option.getD_some, mem_sdel] at h1
            exact absurd rfl h1.2
    · cases h0 : alookup dm k0 with
      | none => rw [cleanKeys_cons_none ks h0]; exact ih hk' _
      | some ss => rw [cleanKeys_cons_some ks h0]; exact ih hk' _

theorem cleanKeys_noempty {c : Obj} (ks : List String) (dm : List (String × List Obj))
    (hdm : ∀ k ss, alookup dm k = some ss → ss ≠ []) :
    ∀ k ss, alookup (cleanKeys c ks dm) k = some ss → ss ≠ [] := by
  induction ks generalizing dm with
  | nil => exact hdm
  | cons k0 ks ih =>
    cases h0 : alookup dm k0 with
    | none =>
      rw [cleanKeys_cons_none ks h0]
      exact ih dm hdm
    | some ss0 =>
      rw [cleanKeys_cons_some ks h0]
      by_cases hnil : sdel ss0 c = []
      · rw [if_pos hnil]
        refine ih _ (fun k ss hss => ?_)
        by_cases hk : k = k0
        · subst hk
          rw [alookup_adel_self] at hss
          cases hss
        · rw [alookup_adel_ne _ hk] at hss
          exact hdm k ss hss
      · rw [if_neg hnil]
        refine ih _ (fun k ss hss => ?_)
        by_cases hk : k = k0
        · subst hk
          rw [alookup_aset_self] at hss
          cases hss
          exact hnil
        · rw [alookup_aset_ne _ _ hk] at hss
          exact hdm k ss hss

theorem cleanTargets_nil (c : Obj) (d : List (Obj × List (String × List Obj))) :
    cleanTargets c [] d = d := rfl

theorem cleanTargets_cons_none {c t0 : Obj} {ks0 : List String}
    {d : List (Obj × List (String × List Obj))} (cm : List (Obj × List String))
    (h : alookup d t0 = none) :
    cleanTargets c ((t0, ks0) :: cm) d = cleanTargets c cm d := by
  rw [cleanTargets, h]

theorem cleanTargets_cons_some {c t0 : Obj} {ks0 : List String}
    {d : List (Obj × List (String × List Obj))} {dm : List (String × List Obj)}
    (cm : List (Obj × List String)) (h : alookup d t0 = some dm) :
    cleanTargets c ((t0, ks0) :: cm) d =
      cleanTargets c cm
        (if cleanKeys c ks0 dm = [] then adel d t0 else aset d t0 (cleanKeys c ks0 dm)) := by
  rw [cleanTargets, h]

theorem cleanTargets_other {c c' : Obj} (hne : c' ≠ c) (cm : List (Obj × List String))
    (d : List (Obj × List (String × List Obj))) (t : Obj) (k : String) :
    depsMem (cleanTargets c cm d) t k c' ↔ depsMem d t k c' := by
  induction cm generalizing d with
  | nil => exact Iff.rfl
  | cons p cm ih =>
    obtain ⟨t0, ks0⟩ := p
    cases h0 : alookup d t0 with
    | none => rw [cleanTargets_cons_none cm h0, ih]
    | some dm =>
      rw [cleanTargets_cons_some cm h0]
      by_cases hnil : cleanKeys c ks0 dm = []
      · rw [if_pos hnil, ih]
        by_cases ht : t = t0
        · subst ht
          unfold depsMem
          rw [alookup_adel_self, h0]
          simp only [Option.getD_none, Option.getD_some, alookup, List.not_mem_nil, false_iff]
          intro hmem
          have h1 : dmMem dm k c' := hmem
          rw [← cleanKeys_other hne ks0 dm k, hnil] at h1
          simp [dmMem, alookup] at h1
        · simp only [depsMem, alookup_adel_ne _ ht]
      · rw [if_neg hnil, ih]
        by_cases ht : t = t0
        · subst ht
          simp only [depsMem, alookup_aset_self, Option.getD_some, h0]
          exact cleanKeys_other hne ks0 dm k
        · simp only [depsMem, alookup_aset_ne _ _ ht]

theorem cleanTargets_mono {c : Obj} (cm : List (Obj × List String))
    (d : List (Obj × List (String × List Obj))) (t : Obj) (k : String)
    (h : depsMem (cleanTargets c cm d) t k c) : depsMem d t k c := by
  induction cm generalizing d with
  | nil => exact h
  | cons p cm ih =>
    obtain ⟨t0, ks0⟩ := p
    cases h0 : alookup d t0 with
    | none =>
      rw [cleanTargets_cons_none cm h0] at h
      exact ih _ h
    | some dm =>
      rw [cleanTargets_cons_some cm h0] at h
      by_cases hnil : cleanKeys c ks0 dm = []
      · rw [if_pos hnil] at h
        have h1 := ih _ h
        by_cases ht : t = t0
        · subst ht
          simp [depsMem, alookup_adel_self, alookup] at h1
        · simpa [depsMem, alookup_adel_ne _ ht] using h1
      · rw [if_neg hnil] at h
        have h1 := ih _ h
        by_cases ht : t = t0
        · subst ht
          simp only [depsMem, alookup_aset_self, Option.getD_some] at h1
          have h2 : dmMem dm k c := cleanKeys_mono ks0 dm k h1
          simp only [depsMem, h0, Option.getD_some]
          exact h2
        · simpa [depsMem, alookup_aset_ne _ _ ht] using h1

theorem cleanTargets_removes {c : Obj} {cm : List (Obj × List String)} {t : Obj}
    {ks : List String} {k : String} (hcm : (t, ks) ∈ cm) (hk : k ∈ ks)
    (d : List (Obj × List (String × List Obj))) :
    ¬ depsMem (cleanTargets c cm d) t k c := by
  induction cm generalizing d with
  | nil => cases hcm
  | cons p cm ih =>
    obtain ⟨t0, ks0⟩ := p
    by_cases hrest : (t, ks) ∈ cm
    · cases h0 : alookup d t0 with
      | none => rw [cleanTargets_cons_none cm h0]; exact ih hrest _
      | some dm => rw [cleanTargets_cons_some cm h0]; exact ih hrest _
    · have heq : t = t0 ∧ ks = ks0 := by
        rcases List.mem_cons.mp hcm with heq | hcm'
        · exact ⟨congrArg Prod.fst heq, congrArg Prod.snd heq⟩
        · exact absurd hcm' hrest
      obtain ⟨rfl, rfl⟩ := heq
      intro hmem
      cases h0 : alookup d t with
      | none =>
        rw [cleanTargets_cons_none cm h0] at hmem
        have h1 := cleanTargets_mono cm _ t k hmem
        simp [depsMem, h0, alookup] at h1
      | some dm =>
        rw [cleanTargets_cons_some cm h0] at hmem
        have h1 := cleanTargets_mono cm _ t k hmem
        by_cases hnil : cleanKeys c ks dm = []
        · rw [if_pos hnil] at h1
          simp [depsMem, alookup_adel_self, alookup] at h1
        · rw [if_neg hnil] at h1
          simp only [depsMem, alookup_aset_self, Option.getD_some] at h1
          exact cleanKeys_removes hk dm h1

theorem cleanTargets_noempty {c : Obj} (cm : List (Obj × List String))
    (d : List (Obj × List (String × List Obj)))
    (hd : ∀ t dm, alookup d t = some dm → dm ≠ [] ∧ ∀ k ss, alookup dm k = some ss → ss ≠ []) :
    ∀ t dm, alookup (cleanTargets c cm d) t = some dm →
      dm ≠ [] ∧ ∀ k ss, alookup dm k = some ss → ss ≠ [] := by
  induction cm generalizing d with
  | nil => exact hd
  | cons p cm ih =>
    obtain ⟨t0, ks0⟩ := p
    cases h0 : alookup d t0 with
    | none =>
      rw [cleanTargets_cons_none cm h0]
      exact ih d hd
    | some dm0 =>
      rw [cleanTargets_cons_some cm h0]
      by_cases hnil : cleanKeys c ks0 dm0 = []
      · rw [if_pos hnil]
        refine ih _ (fun t dm hdm => ?_)
        by_cases ht : t = t0
        · subst ht
          rw [alookup_adel_self] at hdm
          cases hdm
        · rw [alookup_adel_ne _ ht] at hdm
          exact hd t dm hdm
      · rw [if_neg hnil]
        refine ih _ (fun t dm hdm => ?_)
        by_cases ht : t = t0
        · subst ht
          rw [alookup_aset_self] at hdm
          cases hdm
          exact ⟨hnil, cleanKeys_noempty ks0 dm0 (hd t dm0 h0).2⟩
        · rw [alookup_aset_ne _ _ ht] at hdm
          exact hd t dm hdm


theorem cleanupContext_none {st : World} {c : Obj} (h : alookup st.subs c = none) :
    cleanupContext st c = st := by
  rw [cleanupContext, h]

theorem cleanupContext_some {st : World} {c : Obj} {cm : List (Obj × List String)}
    (h : alookup st.subs c = some cm) :
    cleanupContext st c =
      { st with deps := cleanTargets c cm st.deps, subs := adel st.subs c } := by
  rw [cleanupContext, h]

theorem cleanup_rev_self (st : World) (c : Obj) (t : Obj) (k : String) :
    ¬ RevMem (cleanupContext st c) c t k := by
  cases h : alookup st.subs c with
  | none =>
    rw [cleanupContext_none h]
    simp [RevMem, revSet, h, alookup]
  | some cm =>
    rw [cleanupContext_some h]
    simp [RevMem, revSet, alookup_adel_self, alookup]

theorem cleanup_rev_other (st : World) {c c' : Obj} (hcc : c' ≠ c) (t : Obj) (k : String) :
    RevMem (cleanupContext st c) c' t k ↔ RevMem st c' t k := by
  cases h : alookup st.subs c with
  | none => rw [cleanupContext_none h]
  | some cm =>
    rw [cleanupContext_some h]
    simp only [RevMem, revSet]
    rw [alookup_adel_ne _ hcc]

theorem cleanup_fwd_other (st : World) {c c' : Obj} (hcc : c' ≠ c) (t : Obj) (k : String) :
    FwdMem (cleanupContext st c) t k c' ↔ FwdMem st t k c' := by
  cases h : alookup st.subs c with
  | none => rw [cleanupContext_none h]
  | some cm =>
    rw [cleanupContext_some h]
    exact cleanTargets_other hcc cm st.deps t k

theorem cleanup_fwd_self {st : World} (hInv : Inv st) (c : Obj) (t : Obj) (k : String) :
    ¬ FwdMem (cleanupContext st c) t k c := by
  cases h : alookup st.subs c with
  | none =>
    rw [cleanupContext_none h]
    intro hmem
    have hrev := (hInv t k c).mp hmem
    simp [RevMem, revSet, h, alookup] at hrev
  | some cm =>
    rw [cleanupContext_some h]
    intro hmem
    have hmem' : depsMem (cleanTargets c cm st.deps) t k c := hmem
    have hfwd : FwdMem st t k c := cleanTargets_mono cm st.deps t k hmem'
    have hrev := (hInv t k c).mp hfwd
    have hks : ∃ ks, alookup cm t = some ks ∧ k ∈ ks := by
      cases hct : alookup cm t with
      | none =>
        exfalso
        simp [RevMem, revSet, h, hct, alookup] at hrev
      | some ks =>
        refine ⟨ks, rfl, ?_⟩
        simpa [RevMem, revSet, h, hct] using hrev
    obtain ⟨ks, hct, hkks⟩ := hks
    exact cleanTargets_removes (alookup_mem hct) hkks st.deps hmem'

theorem cleanup_noempties {st : World} (hne : NoEmpties st) (c : Obj) :
    NoEmpties (cleanupContext st c) := by
  cases h : alookup st.subs c with
  | none => rw [cleanupContext_none h]; exact hne
  | some cm =>
    rw [cleanupContext_some h]
    exact cleanTargets_noempty cm st.deps hne

theorem cleanup_idem (st : World) (c : Obj) :
    cleanupContext (cleanupContext st c) c = cleanupContext st c := by
  cases h : alookup st.subs c with
  | none => rw [cleanupContext_none h, cleanupContext_none h]
  | some cm =>
    rw [cleanupContext_some h]
    exact cleanupContext_none (alookup_adel_self st.subs c)

theorem cleanup_inv {st : World} (hInv : Inv st) (c : Obj) : Inv (cleanupContext st c) := by
  intro t k c'
  by_cases hc : c' = c
  · subst hc
    exact iff_of_false (cleanup_fwd_self hInv c' t k) (cleanup_rev_self st c' t k)
  · rw [cleanup_fwd_other st hc t k, cleanup_rev_other st hc t k]
    exact hInv t k c'

theorem track_no_ctx {st : World} (h : getCurrentContext st = none) (t : Obj) (k : String) :
    track st t k = st := by
  rw [track, h]

theorem track_some_eq {st : World} {c : Obj} (hc : getCurrentContext st = some c)
    (t : Obj) (k : String) :
    track st t k =
      { st with
        deps := aset st.deps t (aset ((alookup st.deps t).getD []) k
          (sadd ((alookup ((alookup st.deps t).getD []) k).getD []) c)),
        subs := aset st.subs c (aset ((alookup st.subs c).getD []) t
          (sadd ((alookup ((alookup st.subs c).getD []) t).getD []) k)) } := by
  rw [track, hc]

theorem track_fwd {st : World} {c : Obj} (hc : getCurrentContext st = some c)
    (t : Obj) (k : String) (t' : Obj) (k' : String) (c' : Obj) :
    FwdMem (track st t k) t' k' c' ↔ FwdMem st t' k' c' ∨ (c' = c ∧ t' = t ∧ k' = k) := by
  rw [track_some_eq hc]
  by_cases ht : t' = t
  · subst ht
    by_cases hk : k' = k
    · subst hk
      by_cases hcc : c' = c
      · subst hcc
        simp [FwdMem, fwdSet, alookup_aset_self, mem_sadd]
      · simp [FwdMem, fwdSet, alookup_aset_self, mem_sadd, hcc]
    · simp [FwdMem, fwdSet, alookup_aset_self, alookup_aset_ne _ _ hk, hk]
  · simp [FwdMem, fwdSet, alookup_aset_ne _ _ ht, ht]

theorem track_rev {st : World} {c : Obj} (hc : getCurrentContext st = some c)
    (t : Obj) (k : String) (t' : Obj) (k' : String) (c' : Obj) :
    RevMem (track st t k) c' t' k' ↔ RevMem st c' t' k' ∨ (c' = c ∧ t' = t ∧ k' = k) := by
  rw [track_some_eq hc]
  by_cases hcc : c' = c
  · subst hcc
    by_cases ht : t' = t
    · subst ht
      by_cases hk : k' = k
      · subst hk
        simp [RevMem, revSet, alookup_aset_self, mem_sadd]
      · simp [RevMem, revSet, alookup_aset_self, alookup_aset_ne _ _ hk, mem_sadd, hk]
    · simp [RevMem, revSet, alookup_aset_self, alookup_aset_ne _ _ ht, ht]
  · simp [RevMem, revSet, alookup_aset_ne _ _ hcc, hcc]

theorem track_inv {st : World} (hInv : Inv st) (t : Obj) (k : String) : Inv (track st t k) := by
  cases hc : getCurrentContext st with
  | none => rw [track_no_ctx hc]; exact hInv
  | some c =>
    intro t' k' c'
    rw [track_fwd hc t k t' k' c', track_rev hc t k t' k' c', hInv t' k' c']

/-- C2 (amended): the forward/reverse iff-invariant is preserved by
`track` and `cleanupContext`, and trivially by `trigger` (which never
edits either index); `clearDependencies(target)`, however, removes
only the target's forward-index entry (plus the target's own
reverse-index entry in the role of a context): reverse-index entries
of other contexts pointing at the target survive, so the invariant can
break after `clearDependencies`. -/
theorem tracker_index_consistency_amended (st : World) (t : Obj) (k : String) (c : Obj)
    (hInv : Inv st) :
    Inv (track st t k) ∧
    Inv (cleanupContext st c) ∧
    (trigger st t k).1.deps = st.deps ∧ (trigger st t k).1.subs = st.subs ∧
    (∀ k' c', ¬ FwdMem (clearDependencies st t) t k' c') ∧
    (∀ c' t' k', c' ≠ t → (RevMem (clearDependencies st t) c' t' k' ↔ RevMem st c' t' k')) := by
  refine ⟨track_inv hInv t k, cleanup_inv hInv c,
    (trigger_fields st t k).1, (trigger_fields st t k).2.1, ?_, ?_⟩
  · intro k' c'
    simp [FwdMem, fwdSet, clearDependencies, alookup_adel_self, alookup]
  · intro c' t' k' hcc
    simp only [RevMem, revSet, clearDependencies]
    rw [alookup_adel_ne _ hcc]

/-- C2 counterexample: starting from consistent (empty) indices with
context `xCtx2` live, `track` records the edge in both indices, but
`clearDependencies` on the target then drops only the forward side:
the reverse entry survives while the forward edge is gone, refuting
the claimed iff-consistency under every operation sequence. -/
theorem clearDependencies_breaks_consistency :
    RevMem (clearDependencies (track tW xSig "value") xSig) xCtx2 xSig "value" ∧
    ¬ FwdMem (clearDependencies (track tW xSig "value") xSig) xSig "value" xCtx2 := by
  decide

/-- C8: on an index pair satisfying the forward/reverse invariant and
holding no empty entries, `cleanupContext(context)` removes every edge
where the context is the subscriber from both indices, leaves every
other context's edges untouched, leaves no empty subscriber set or
per-target map behind, and is idempotent (a second call finds no
reverse entry and changes nothing). -/
theorem cleanupContext_removes_prunes_idempotent (st : World) (c : Obj)
    (hInv : Inv st) (hnem : NoEmpties st) :
    (∀ t k, ¬ FwdMem (cleanupContext st c) t k c) ∧
    (∀ t k, ¬ RevMem (cleanupContext st c) c t k) ∧
    (∀ t k c', c' ≠ c → (FwdMem (cleanupContext st c) t k c' ↔ FwdMem st t k c')) ∧
    (∀ c' t k, c' ≠ c → (RevMem (cleanupContext st c) c' t k ↔ RevMem st c' t k)) ∧
    NoEmpties (cleanupContext st c) ∧
    cleanupContext (cleanupContext st c) c = cleanupContext st c :=
  ⟨fun t k => cleanup_fwd_self hInv c t k,
   fun t k => cleanup_rev_self st c t k,
   fun t k c' hcc => cleanup_fwd_other st hcc t k,
   fun c' t k hcc => cleanup_rev_other st hcc t k,
   cleanup_noempties hnem c,
   cleanup_idem st c⟩


theorem track_fields (st : World) (t : Obj) (k : String) :
    (track st t k).executionStack = st.executionStack ∧
    (track st t k).batchDepth = st.batchDepth := by
  unfold track
  split <;> exact ⟨rfl, rfl⟩

theorem cleanup_fields (st : World) (c : Obj) :
    (cleanupContext st c).executionStack = st.executionStack ∧
    (cleanupContext st c).batchDepth = st.batchDepth := by
  unfold cleanupContext
  split <;> exact ⟨rfl, rfl⟩

theorem setValue_stack_depth (st : World) (s : Obj) (v : Val) :
    (setValue st s v).1.executionStack = st.executionStack ∧
    (setValue st s v).1.batchDepth = st.batchDepth := by
  unfold setValue
  split
  · exact ⟨rfl, rfl⟩
  · exact ⟨(trigger_fields _ s "value").2.2.1, (trigger_fields _ s "value").2.2.2.1⟩

theorem flush_eq (st : World) :
    flushUpdates st = ({ st with pending := [] }, st.pending.flatMap runUpd) := by
  unfold flushUpdates
  split
  · rename_i h
    cases st
    simp_all
  · rfl

mutual
theorem runCmd_pres (st : World) (c : Cmd) :
    (runCmd st c).1.executionStack = st.executionStack ∧
    (runCmd st c).1.batchDepth = st.batchDepth := by
  cases c with
  | read s => exact ⟨(track_fields st s "value").1, (track_fields st s "value").2⟩
  | write s v => exact setValue_stack_depth st s v
  | track t k => exact ⟨(track_fields st t k).1, (track_fields st t k).2⟩
  | trig t k => exact ⟨(trigger_fields st t k).2.2.1, (trigger_fields st t k).2.2.2.1⟩
  | queue f => exact ⟨(queueUpdate_fields st f).2.2.1, (queueUpdate_fields st f).2.2.2.1⟩
  | batch body =>
    have hb := runCmds_pres { st with batchDepth := st.batchDepth + 1 } body
    simp only [runCmd]
    split
    · rw [flush_eq]
      exact ⟨hb.1, by simp [hb.2]⟩
    · exact ⟨hb.1, by simp [hb.2]⟩
  | withT c body =>
    have hb := runCmds_pres { st with executionStack := c :: st.executionStack } body
    have hb1 : (runCmds { st with executionStack := c :: st.executionStack } body).1.executionStack
        = c :: st.executionStack := hb.1
    simp only [runCmd]
    exact ⟨by rw [hb1]; rfl, hb.2⟩
  | cleanup c => exact ⟨(cleanup_fields st c).1, (cleanup_fields st c).2⟩
  | clearDeps t => exact ⟨rfl, rfl⟩
  | disposeSig s => exact ⟨rfl, rfl⟩
  | subscribe s cb => exact ⟨rfl, rfl⟩
  | throwErr e => exact ⟨rfl, rfl⟩

theorem runCmds_pres (st : World) (l : Cmds) :
    (runCmds st l).1.executionStack = st.executionStack ∧
    (runCmds st l).1.batchDepth = st.batchDepth := by
  cases l with
  | nil => exact ⟨rfl, rfl⟩
  | cons c rest =>
    have h1 := runCmd_pres st c
    simp only [runCmds]
    split
    · exact h1
    · have h2 := runCmds_pres (runCmd st c).1 rest
      exact ⟨h2.1.trans h1.1, h2.2.trans h1.2⟩
end

/-- C4: `withTracking(fn, context)` pushes the context (which becomes
the current context for the body), runs the body from the pushed
state, and pops in the `finally` block: the final execution stack
equals the initial one even when the body throws, the body's value is
returned on normal completion and the body's exception is re-raised
otherwise (the full result is the body's outcome with the stack
restored). -/
theorem withTracking_balanced (st : World) (fn : Cmds) (ret : Val) (c : Obj) :
    getCurrentContext { st with executionStack := c :: st.executionStack } = some c ∧
    withTracking st fn ret c =
      (let r := runCmds { st with executionStack := c :: st.executionStack } fn
       ({ r.1 with executionStack := st.executionStack }, r.2.1,
         match r.2.2 with
         | some e => Except.error e
         | none => Except.ok ret)) ∧
    (withTracking st fn ret c).1.executionStack = st.executionStack := by
  have hb : (runCmds { st with executionStack := c :: st.executionStack } fn).1.executionStack
      = c :: st.executionStack := (runCmds_pres _ fn).1
  refine ⟨rfl, ?_, ?_⟩
  · simp only [withTracking]
    rw [hb]
    rfl
  · show (runCmds { st with executionStack := c :: st.executionStack } fn).1.executionStack.tail
      = st.executionStack
    rw [hb, List.tail_cons]

/-- C7: `batchUpdates(fn)` increments the batch depth, runs the body,
decrements in the `finally` block, and flushes exactly when the depth
returns to zero; the flush snapshots the pending set, clears it, and
runs every pending update in insertion order, catching each update's
exception so the remaining updates still run (every queued closure's
events are emitted and the flush itself never raises); a nested
`batchUpdates` call (entered at positive depth) performs no flush —
the single flush happens at the outermost exit. -/
theorem batchUpdates_flush_semantics (st : World) (fn : Cmds) :
    (st.batchDepth = 0 →
      batchUpdates st fn =
        (let r := runCmds { st with batchDepth := st.batchDepth + 1 } fn
         ({ r.1 with batchDepth := 0, pending := [] },
           r.2.1 ++ r.1.pending.flatMap runUpd, r.2.2))) ∧
    (0 < st.batchDepth →
      batchUpdates st fn =
        (let r := runCmds { st with batchDepth := st.batchDepth + 1 } fn
         ({ r.1 with batchDepth := st.batchDepth }, r.2.1, r.2.2))) ∧
    (∀ w : World, flushUpdates w = ({ w with pending := [] }, w.pending.flatMap runUpd)) := by
  have hb : (runCmds { st with batchDepth := st.batchDepth + 1 } fn).1.batchDepth
      = st.batchDepth + 1 := (runCmds_pres _ fn).2
  refine ⟨?_, ?_, fun w => flush_eq w⟩
  · intro h0
    show runCmd st (.batch fn) = _
    simp only [runCmd, hb, Nat.add_sub_cancel]
    rw [if_pos h0, flush_eq, h0]
  · intro hpos
    show runCmd st (.batch fn) = _
    simp only [runCmd, hb, Nat.add_sub_cancel]
    rw [if_neg (by omega : ¬ st.batchDepth = 0)]

/-- C1: the code evaluated at the failing input — two value-changing
writes to one Signal carrying a single tracker subscriber, inside one
`batchUpdates` call — executes that subscriber's `update()` twice at
the flush, not once: each `trigger` call wraps the subscriber in a
brand-new `() => subscriber.update()` closure, so the pending Set's
identity-based deduplication never collapses closures from different
writes.  The deduplication does collapse the literally identical
closure handed twice to `queueUpdate` (second conjunct). -/
theorem batched_writes_run_subscriber_twice :
    countUpd (batchUpdates bW (.cons (.write xSig 1) (.cons (.write xSig 2) .nil))).2.1 xEff.id
      = 2 ∧
    countUpd (batchUpdates bW
        (.cons (.queue ⟨100, xEff⟩) (.cons (.queue ⟨100, xEff⟩) .nil))).2.1 xEff.id
      = 1 := by
  constructor <;> rfl


/-- C2 witness: the amended consistency theorem applied at a concrete
consistent state (empty indices, one live context). -/
theorem tracker_index_consistency_witness :
    Inv (track tW xSig "value") ∧ Inv (cleanupContext tW xCtx2) :=
  have h := tracker_index_consistency_amended tW xSig "value" xCtx2
    (by intro t k c; simp [Inv, FwdMem, RevMem, fwdSet, revSet, tW, alookup])
  ⟨h.1, h.2.1⟩

/-- C3 witness: the amended cycle theorem applied at the concrete
cycling state `cW`. -/
theorem trigger_cycle_raises_plain_error_witness :
    trigger cW xSig "value" = (cW, [], some (circErr xSig "value")) :=
  (trigger_cycle_raises_plain_error cW xSig "value" (by decide) (by decide)).1

/-- C5 witness: the identical-write theorem applied at a concrete
signal holding the value being rewritten. -/
theorem signal_identical_write_noop_witness :
    setValue sW xSig 0 = (sW, [], none) :=
  (signal_identical_write_noop sW xSig 0).1 (by decide)

/-- C6 witness: the changed-write theorem applied at a concrete signal
and a genuinely new value. -/
theorem signal_changed_write_sequence_witness :
    alookup (setValue sW xSig 5).1.sigVal xSig = some 5 :=
  (signal_changed_write_sequence sW xSig 5 (by decide)).2.1

/-- C7 witness: the batch theorem applied at a concrete outermost
batch (depth zero) around an empty body. -/
theorem batchUpdates_flush_semantics_witness :
    batchUpdates bW Cmds.nil =
      (let r := runCmds { bW with batchDepth := bW.batchDepth + 1 } Cmds.nil
       ({ r.1 with batchDepth := 0, pending := [] },
         r.2.1 ++ r.1.pending.flatMap runUpd, r.2.2)) :=
  (batchUpdates_flush_semantics bW Cmds.nil).1 rfl

/-- C8 witness: the cleanup theorem applied at a concrete consistent
state, exhibiting the idempotence conclusion. -/
theorem cleanupContext_removes_prunes_idempotent_witness :
    cleanupContext (cleanupContext tW xCtx2) xCtx2 = cleanupContext tW xCtx2 :=
  (cleanupContext_removes_prunes_idempotent tW xCtx2
    (by intro t k c; simp [Inv, FwdMem, RevMem, fwdSet, revSet, tW, alookup])
    (by intro t dm h; simp [tW, alookup] at h)).2.2.2.2.2

/-- C9 witness: the disposed-signal theorem applied at a concrete
signal with one direct subscriber. -/
theorem disposed_signal_write_silent_witness :
    (setValue (dispose sW xSig) xSig 5).2.1 = [] ∧
    (setValue (dispose sW xSig) xSig 5).2.2 = none :=
  disposed_signal_write_silent sW xSig (by decide) 5

/-- C10 witness: the partial-subscription theorem applied at one valid
Signal followed by a non-Signal element. -/
theorem subscribeToMultiple_partial_on_invalid_witness :
    subscribeToMultiple sW [xSig, xCtx2] { id := 9 } =
      (subscribeAll sW [xSig] { id := 9 }, some ⟨"Error", "All items must be Signal instances"⟩) :=
  (subscribeToMultiple_partial_on_invalid sW [xSig] xCtx2 [] { id := 9 }
    (by decide) (by decide)).1

end Pulse
